import Mathlib

/-!
Verification of the retrieval-augmented persona context engine
(transcript parser, word chunker, vector index search, retrieval
filtering, persona signal extraction) against its design document.

Strings are shallowly embedded as lists of characters (`Str`); Python
string operations (`split`, `strip`, `lower`, slicing, `in`) are
modelled as executable functions on `Str`.
-/

namespace RoboInfluencer

/-- Shallow embedding of Python strings as lists of characters. -/
abbrev Str := List Char

/-- Python whitespace test (`str.split` / `str.strip` / regex `\s`):
space, tab, carriage return and newline. -/
def isSpaceCh (c : Char) : Bool := c.isWhitespace

/-- ASCII letter test, the regex class `[A-Za-z]`. -/
def isAlphaCh (c : Char) : Bool := c.isAlpha

/-- Python `str.lower()` (ASCII behaviour). -/
def pyLower (s : Str) : Str := s.map Char.toLower

/-- Python `str.strip()`: remove leading and trailing whitespace. -/
def pyStrip (s : Str) : Str :=
  ((s.dropWhile isSpaceCh).reverse.dropWhile isSpaceCh).reverse

/-- Accumulator loop behind `splitWords`; `acc` holds the reversed
current word. -/
def splitWordsAux : Str → Str → List Str
  | [], acc => if acc.isEmpty then [] else [acc.reverse]
  | c :: cs, acc =>
    if isSpaceCh c then
      if acc.isEmpty then splitWordsAux cs []
      else acc.reverse :: splitWordsAux cs []
    else splitWordsAux cs (c :: acc)

/-- Python `str.split()` with no argument: split on runs of whitespace,
discarding empty pieces. -/
def splitWords (s : Str) : List Str := splitWordsAux s []

/-- Python `' '.join(words)`. -/
def joinWords : List Str → Str
  | [] => []
  | [w] => w
  | w :: ws => w ++ ' ' :: joinWords ws

/-- Python `term in s` on strings: substring containment. -/
def hasTerm (s term : Str) : Bool := s.tails.any (fun t => term.isPrefixOf t)

/-- Python slice index adjustment: negative indices count from the end,
and indices are clamped to `[0, len]`. -/
def pyIdx (len : Nat) (i : Int) : Nat :=
  if i < 0 then ((len : Int) + i).toNat else min i.toNat len

/-- Python list slice `l[a:b]`. -/
def pySlice {α : Type} (l : List α) (a b : Int) : List α :=
  let s := pyIdx l.length a
  let e := pyIdx l.length b
  (l.drop s).take (e - s)

/-! ### Chunker (`src/core/utils.py`, `chunk_text_by_tokens`)

The `while start < len(words)` loop is embedded with an explicit fuel
argument counting loop iterations; `none` means the loop has not
terminated within `fuel` iterations.  `start` is an `Int` because the
source computes `start = end - chunk_overlap` with Python integers,
which can go negative when the overlap is too large. -/

def chunkLoop (words : List Str) (chunk_size chunk_overlap : Nat) :
    Nat → Int → Option (List Str)
  | 0, _ => none
  | fuel + 1, start =>
    if start < (words.length : Int) then
      let e : Int := min (start + (chunk_size : Int)) (words.length : Int)
      let chunk := joinWords (pySlice words start e)
      if (words.length : Int) ≤ e then some [chunk]
      else (chunkLoop words chunk_size chunk_overlap fuel
              (e - (chunk_overlap : Int))).map (chunk :: ·)
    else some []

/-- `chunk_text_by_tokens(text, chunk_size, chunk_overlap)`.  The fuel
`words.length + 1` is enough for every terminating run of the source
loop (the window start strictly increases while the loop continues), so
a `none` result means the source loop runs forever. -/
def chunk_text_by_tokens (text : Str) (chunk_size : Nat := 1000)
    (chunk_overlap : Nat := 200) : Option (List Str) :=
  let words := splitWords text
  if words.length ≤ chunk_size then some [text]
  else chunkLoop words chunk_size chunk_overlap (words.length + 1) 0

/-- Join a chunk sequence back together at the word level, removing each
chunk's leading `ov` words after the first chunk. -/
def overlapJoin (ov : Nat) : List (List Str) → List Str
  | [] => []
  | w :: ws => w ++ (ws.map (List.drop ov)).flatten

/-! ### Data model (`src/core/models.py`)

`metadata` carries provenance only and plays no role in any claim; it is
modelled as a key-value list.  `embedding` vectors are modelled with
exact rationals standing in for floats (only ordering and filtering of
scores matter to the claims). -/

structure ConversationChunk where
  id : Str
  speaker : Str
  content : Str
  metadata : List (Str × Str) := []
  file_source : Str
  embedding : Option (List ℚ) := none
deriving DecidableEq

structure PersonaContext where
  communication_style : List Str := []
  technical_expertise : List Str := []
  decision_patterns : List Str := []
  personality_traits : List Str := []
  relevant_chunks : List ConversationChunk := []
deriving DecidableEq

/-! ### Speaker identity (`src/core/utils.py`, `is_alex_speaker`) -/

def alex_exact_matches : List Str :=
  ["alex".data, "alexey".data, "alexey shulga".data, "alex shulga".data,
   "shulga".data]

def alex_known_combinations : List Str :=
  ["alex shulga".data, "alexey shulga".data]

def is_alex_speaker (speaker_name : Str) : Bool :=
  let speaker_lower := pyStrip (pyLower speaker_name)
  if alex_exact_matches.contains speaker_lower then true
  else alex_known_combinations.contains speaker_lower

/-! ### Persona signal extraction
(`src/core/utils.py` `extract_alex_communication_patterns`,
`src/core/rag.py` `_extract_*` and `analyze_persona_context`)

The regex `\d+[k+]?\s*(engineers?|users?|hours?|products?)` used by
`re.search` is embedded as an executable matcher: a match exists iff at
some position a maximal nonempty digit run is followed (optionally after
one `k` or `+`) by whitespace and one of the unit words.  The maximal
digit run is equivalent to the backtracking regex because no
continuation of the pattern can consume a digit, and the plural forms
are subsumed by prefix-matching the singular words. -/

def unitTermAfter (r : Str) : Bool :=
  let r' := r.dropWhile isSpaceCh
  ["engineer".data, "user".data, "hour".data, "product".data].any
    (fun u => u.isPrefixOf r')

def metricAt (s : Str) : Bool :=
  let ds := s.takeWhile Char.isDigit
  if ds.isEmpty then false
  else
    let r := s.drop ds.length
    unitTermAfter r ||
      (match r with
       | c :: r' => (c == 'k' || c == '+') && unitTermAfter r'
       | [] => false)

def hasMetric (s : Str) : Bool := s.tails.any metricAt

def platformTerms : List Str :=
  ["platform".data, "horizontal".data, "extensible".data, "api".data,
   "service".data]

def leadershipTerms : List Str :=
  ["team".data, "led".data, "managed".data, "mentored".data,
   "collaboration".data]

def aiTerms : List Str :=
  ["ai".data, "rag".data, "azure".data, "openai".data, "agentic".data,
   "llm".data]

def pat_metrics : Str := "Uses specific metrics and quantifiable impacts".data
def pat_platform : Str :=
  "Demonstrates platform thinking and architectural mindset".data
def pat_leadership : Str :=
  "Shows collaborative leadership and team development focus".data
def pat_ai : Str := "Demonstrates deep AI and technical expertise".data

/-- Patterns contributed by one chunk inside the loop of
`extract_alex_communication_patterns`. -/
def commPatternsOf (c : ConversationChunk) : List Str :=
  let cl := pyLower c.content
  (if hasMetric cl then [pat_metrics] else []) ++
  (if platformTerms.any (fun t => hasTerm cl t) then [pat_platform] else []) ++
  (if leadershipTerms.any (fun t => hasTerm cl t) then [pat_leadership] else []) ++
  (if aiTerms.any (fun t => hasTerm cl t) then [pat_ai] else [])

/-- `extract_alex_communication_patterns`.  Python returns
`list(set(patterns))`; the set is modelled by deduplication (the claims
depend only on membership, the set's iteration order is unspecified). -/
def extract_alex_communication_patterns (chunks : List ConversationChunk) :
    List Str :=
  let alex_chunks := chunks.filter (fun c => is_alex_speaker c.speaker)
  ((alex_chunks.map commPatternsOf).flatten).dedup

def expertiseAiTerms : List Str :=
  ["ai".data, "rag".data, "llm".data, "openai".data, "azure".data,
   "agentic".data]

def expertisePlatformTerms : List Str :=
  ["platform".data, "api".data, "service".data, "architecture".data]

def expertiseMicrosoftTerms : List Str :=
  ["microsoft".data, "azure".data, "teams".data, ".net".data]

def expertiseLeadershipTerms : List Str :=
  ["team".data, "engineer".data, "developer".data, "productivity".data]

def expertiseDevopsTerms : List Str :=
  ["ci/cd".data, "deployment".data, "devops".data, "pipeline".data]

def area_ai : Str := "AI/ML and RAG platforms".data
def area_platform : Str := "Platform engineering and architecture".data
def area_microsoft : Str := "Microsoft ecosystem and Azure".data
def area_leadership : Str := "Engineering team leadership".data
def area_devops : Str := "DevOps and continuous deployment".data

def techAreasOf (c : ConversationChunk) : List Str :=
  let cl := pyLower c.content
  (if expertiseAiTerms.any (fun t => hasTerm cl t) then [area_ai] else []) ++
  (if expertisePlatformTerms.any (fun t => hasTerm cl t) then [area_platform] else []) ++
  (if expertiseMicrosoftTerms.any (fun t => hasTerm cl t) then [area_microsoft] else []) ++
  (if expertiseLeadershipTerms.any (fun t => hasTerm cl t) then [area_leadership] else []) ++
  (if expertiseDevopsTerms.any (fun t => hasTerm cl t) then [area_devops] else [])

/-- `ConversationRAG._extract_technical_expertise`; the Python `set` is
modelled by accumulation plus deduplication. -/
def _extract_technical_expertise (chunks : List ConversationChunk) : List Str :=
  ((chunks.map techAreasOf).flatten).dedup

def decisionDataTerms : List Str :=
  ["metric".data, "data".data, "measure".data, "quantify".data]

def decisionCollabTerms : List Str :=
  ["collaborate".data, "partner".data, "stakeholder".data, "team".data]

def decisionUserTerms : List Str :=
  ["user".data, "customer".data, "experience".data, "productivity".data]

def decisionStrategyTerms : List Str :=
  ["strategy".data, "roadmap".data, "vision".data, "long-term".data]

def dp_data : Str := "Data-driven and metrics-focused decision making".data
def dp_collab : Str := "Collaborative and stakeholder-inclusive approach".data
def dp_user : Str := "User-centric and experience-focused".data
def dp_strategy : Str := "Strategic and long-term thinking".data

def decisionPatternsOf (c : ConversationChunk) : List Str :=
  let cl := pyLower c.content
  (if decisionDataTerms.any (fun t => hasTerm cl t) then [dp_data] else []) ++
  (if decisionCollabTerms.any (fun t => hasTerm cl t) then [dp_collab] else []) ++
  (if decisionUserTerms.any (fun t => hasTerm cl t) then [dp_user] else []) ++
  (if decisionStrategyTerms.any (fun t => hasTerm cl t) then [dp_strategy] else [])

def _extract_decision_patterns (chunks : List ConversationChunk) : List Str :=
  ((chunks.map decisionPatternsOf).flatten).dedup

def traitDetailTerms : List Str :=
  ["specific".data, "detail".data, "example".data]

def traitMissionTerms : List Str :=
  ["mission".data, "purpose".data, "goal".data, "impact".data]

def traitMentorTerms : List Str :=
  ["mentor".data, "promote".data, "support".data, "inclusive".data]

def traitInnovationTerms : List Str :=
  ["innovation".data, "new".data, "advance".data, "cutting-edge".data]

def tr_detail : Str := "Detail-oriented and thorough".data
def tr_mission : Str := "Mission-driven and impact-focused".data
def tr_inclusive : Str := "Inclusive and development-focused leader".data
def tr_innovation : Str := "Innovation-minded and forward-thinking".data

def personalityTraitsOf (c : ConversationChunk) : List Str :=
  let cl := pyLower c.content
  (if 200 < c.content.length && traitDetailTerms.any (fun t => hasTerm cl t)
     then [tr_detail] else []) ++
  (if traitMissionTerms.any (fun t => hasTerm cl t) then [tr_mission] else []) ++
  (if traitMentorTerms.any (fun t => hasTerm cl t) then [tr_inclusive] else []) ++
  (if traitInnovationTerms.any (fun t => hasTerm cl t) then [tr_innovation] else [])

def _extract_personality_traits (chunks : List ConversationChunk) : List Str :=
  ((chunks.map personalityTraitsOf).flatten).dedup

/-- `ConversationRAG.analyze_persona_context`. -/
def analyze_persona_context (retrieved_chunks : List ConversationChunk) :
    PersonaContext :=
  let alex_chunks := retrieved_chunks.filter (fun c => is_alex_speaker c.speaker)
  { communication_style := extract_alex_communication_patterns alex_chunks
    technical_expertise := _extract_technical_expertise alex_chunks
    decision_patterns := _extract_decision_patterns alex_chunks
    personality_traits := _extract_personality_traits alex_chunks
    relevant_chunks := alex_chunks }

/-! ### Label-support predicates: which trigger justifies each label -/

def commSupport (l : Str) (c : ConversationChunk) : Prop :=
  (l = pat_metrics ∧ hasMetric (pyLower c.content) = true) ∨
  (l = pat_platform ∧
    platformTerms.any (fun t => hasTerm (pyLower c.content) t) = true) ∨
  (l = pat_leadership ∧
    leadershipTerms.any (fun t => hasTerm (pyLower c.content) t) = true) ∨
  (l = pat_ai ∧ aiTerms.any (fun t => hasTerm (pyLower c.content) t) = true)

def techSupport (l : Str) (c : ConversationChunk) : Prop :=
  (l = area_ai ∧
    expertiseAiTerms.any (fun t => hasTerm (pyLower c.content) t) = true) ∨
  (l = area_platform ∧
    expertisePlatformTerms.any (fun t => hasTerm (pyLower c.content) t) = true) ∨
  (l = area_microsoft ∧
    expertiseMicrosoftTerms.any (fun t => hasTerm (pyLower c.content) t) = true) ∨
  (l = area_leadership ∧
    expertiseLeadershipTerms.any (fun t => hasTerm (pyLower c.content) t) = true) ∨
  (l = area_devops ∧
    expertiseDevopsTerms.any (fun t => hasTerm (pyLower c.content) t) = true)

def decisionSupport (l : Str) (c : ConversationChunk) : Prop :=
  (l = dp_data ∧
    decisionDataTerms.any (fun t => hasTerm (pyLower c.content) t) = true) ∨
  (l = dp_collab ∧
    decisionCollabTerms.any (fun t => hasTerm (pyLower c.content) t) = true) ∨
  (l = dp_user ∧
    decisionUserTerms.any (fun t => hasTerm (pyLower c.content) t) = true) ∨
  (l = dp_strategy ∧
    decisionStrategyTerms.any (fun t => hasTerm (pyLower c.content) t) = true)

def traitSupport (l : Str) (c : ConversationChunk) : Prop :=
  (l = tr_detail ∧ 200 < c.content.length ∧
    traitDetailTerms.any (fun t => hasTerm (pyLower c.content) t) = true) ∨
  (l = tr_mission ∧
    traitMissionTerms.any (fun t => hasTerm (pyLower c.content) t) = true) ∨
  (l = tr_inclusive ∧
    traitMentorTerms.any (fun t => hasTerm (pyLower c.content) t) = true) ∨
  (l = tr_innovation ∧
    traitInnovationTerms.any (fun t => hasTerm (pyLower c.content) t) = true)

/-- Concrete example chunk used by witnesses. -/
def exampleChunkAlex : ConversationChunk :=
  { id := "c1".data, speaker := "Alex".data,
    content := "our platform api".data, file_source := "t.md".data }

/-! ### Vector index and retrieval
(`src/core/rag.py` `similarity_search`,
`src/agents/alex_persona/tools.py` `retrieve_context`,
`get_alex_specific_context`)

Embedding vectors and similarity scores are exact rationals standing in
for floats; only score ordering and the threshold comparison matter to
the claims. -/

/-- Inner product of two vectors. -/
def dotQ (u v : List ℚ) : ℚ := (List.zipWith (fun a b => a * b) u v).sum

/-- Result ordering of the index search: higher score first, ties broken
by lower insertion key. -/
def scoreRel (a b : ℚ × Nat) : Prop := b.1 < a.1 ∨ (a.1 = b.1 ∧ a.2 ≤ b.2)

instance : DecidableRel scoreRel := fun a b => by
  unfold scoreRel; infer_instance

instance : IsTotal (ℚ × Nat) scoreRel where
  total a b := by
    rcases lt_trichotomy a.1 b.1 with h | h | h
    · exact Or.inr (Or.inl h)
    · rcases Nat.le_total a.2 b.2 with h2 | h2
      · exact Or.inl (Or.inr ⟨h, h2⟩)
      · exact Or.inr (Or.inr ⟨h.symm, h2⟩)
    · exact Or.inl (Or.inl h)

instance : IsTrans (ℚ × Nat) scoreRel where
  trans a b c hab hbc := by
    rcases hab with hab | ⟨hab1, hab2⟩ <;> rcases hbc with hbc | ⟨hbc1, hbc2⟩
    · exact Or.inl (lt_trans hbc hab)
    · exact Or.inl (hbc1 ▸ hab)
    · exact Or.inl (hab1 ▸ hbc)
    · exact Or.inr ⟨hab1.trans hbc1, le_trans hab2 hbc2⟩

/-- Modelled from the spec: the external FAISS `IndexFlatIP.search` used
by `similarity_search` is not part of this repository; following the
spec's Vector Index contract it is exact exhaustive inner-product search
over the stored vectors, returning the top `n` `(score, insertion key)`
pairs ordered by descending score with ties broken by lower insertion
key. -/
def faissSearch (index : List (List ℚ)) (q : List ℚ) (n : Nat) :
    List (ℚ × Nat) :=
  ((index.enum.map (fun p => (dotQ q p.2, p.1))).insertionSort scoreRel).take n

/-- In-memory state of `ConversationRAG` after a build or load: the
stored vectors, the chunk list, and the integer-keyed chunk lookup
table. -/
structure RAGState where
  index : List (List ℚ)
  chunks : List ConversationChunk
  chunk_map : List (Nat × ConversationChunk)

/-- `ConversationRAG.similarity_search` given the query's embedding
vector: searches for `min(k, len(chunks))` results, then keeps those
whose key is in `chunk_map` and whose score exceeds the 0.1 threshold,
returning chunks only. -/
def similarity_search (st : RAGState) (q : List ℚ) (k : Nat) :
    List ConversationChunk :=
  (faissSearch st.index q (min k st.chunks.length)).filterMap
    (fun p => if (1 : ℚ)/10 < p.1 then st.chunk_map.lookup p.2 else none)

/-- The scored results surviving the threshold and lookup filters, used
to state the ordering property of `similarity_search`. -/
def searchScored (st : RAGState) (q : List ℚ) (k : Nat) : List (ℚ × Nat) :=
  (faissSearch st.index q (min k st.chunks.length)).filter
    (fun p => decide ((1 : ℚ)/10 < p.1) && (st.chunk_map.lookup p.2).isSome)

/-- `RAGRetrievalTool.retrieve_context`. -/
def retrieve_context (st : RAGState) (q : List ℚ) (k : Nat) :
    List ConversationChunk :=
  similarity_search st q k

/-- `RAGRetrievalTool.get_alex_specific_context`: over-fetch `k * 2`,
filter to the persona speaker, truncate to `k`. -/
def get_alex_specific_context (st : RAGState) (q : List ℚ) (k : Nat) :
    List ConversationChunk :=
  ((retrieve_context st q (k * 2)).filter
    (fun c => is_alex_speaker c.speaker)).take k

/-- Concrete one-vector state used by witnesses. -/
def exampleState : RAGState :=
  { index := [[1]], chunks := [exampleChunkAlex],
    chunk_map := [(0, exampleChunkAlex)] }

/-! ### Vector store persistence (`src/core/rag.py`)

The filesystem is modelled as a presence predicate on paths; reading an
artifact succeeds exactly when its file is present. -/

def indexFileName : Str := "index.faiss".data

def chunksFileName : Str := "chunks.pkl".data

def indexPath (vsp : Str) : Str := vsp ++ '/' :: indexFileName

def chunksPath (vsp : Str) : Str := vsp ++ '/' :: chunksFileName

/-- `ConversationRAG._vector_store_exists`. -/
def _vector_store_exists (fileExists : Str → Bool) (vsp : Str) : Bool :=
  fileExists (indexPath vsp) && fileExists (chunksPath vsp)

inductive LoadOutcome where
  | loadedFromDisk
  | rebuiltInPlace
deriving DecidableEq

/-- `ConversationRAG._load_vector_store`: reads both artifacts inside a
`try`; any read failure (in particular a missing artifact) is caught by
the bare `except`, which logs and calls `_build_vector_store` — so the
rebuild happens inside the load operation itself, and no
`VectorStoreNotFound`-style error reaches the caller. -/
def _load_vector_store (fileExists : Str → Bool) (vsp : Str) : LoadOutcome :=
  if fileExists (indexPath vsp) && fileExists (chunksPath vsp) then
    LoadOutcome.loadedFromDisk
  else LoadOutcome.rebuiltInPlace

inductive InitAction where
  | build
  | load
deriving DecidableEq

/-- The build-or-load decision made at startup by the RAG system's
start-up method: build when forced or when the store does not (fully)
exist, otherwise load. -/
def buildOrLoad (force_rebuild : Bool) (fileExists : Str → Bool)
    (vsp : Str) : InitAction :=
  if force_rebuild || !(_vector_store_exists fileExists vsp) then
    InitAction.build
  else InitAction.load

def examplePath : Str := "data/vectors".data

/-- A filesystem on which only the search-structure artifact exists. -/
def exampleFsIndexOnly : Str → Bool := fun p => p == indexPath examplePath

/-! ### Embedding cache (`src/core/rag.py`, `_get_embedding`)

The external embedding provider is a function parameter; the cache
dictionary is an association list.  `calledProvider` records whether the
provider was consulted on this call. -/

structure EmbedResult where
  vec : List ℚ
  cache : List (Str × List ℚ)
  calledProvider : Bool
deriving DecidableEq

/-- `ConversationRAG._get_embedding`: the cache key is the first 100
characters of the text; on a hit the cached vector is returned without
calling the provider, on a miss the provider is called and the result
stored under the truncated key. -/
def _get_embedding (provider : Str → List ℚ) (cache : List (Str × List ℚ))
    (text : Str) : EmbedResult :=
  let cache_key := text.take 100
  match cache.lookup cache_key with
  | some v => { vec := v, cache := cache, calledProvider := false }
  | none =>
    let e := provider text
    { vec := e, cache := (cache_key, e) :: cache, calledProvider := true }

def exampleProvider : Str → List ℚ := fun _ => [1]

def exT1 : Str := List.replicate 100 'a' ++ ['x']

def exT2 : Str := List.replicate 100 'a' ++ ['y']

/-! ### Transcript parser (`src/core/utils.py`,
`parse_markdown_conversation`, `_is_header_or_metadata`,
`_generate_chunk_id`)

The regex
`\*\*([A-Za-z]+)\s*\([^)]+\):\*\*\s*(.*?)(?=\n\n\*\*|\Z)` with
`re.DOTALL` and `re.findall` is embedded as an executable scanner.  At
each position it tries to match: two stars, a maximal nonempty letter
run (the speaker group), optional whitespace, a parenthesis, a maximal
nonempty run of non-`)` characters, then `):**`, maximal whitespace,
and the lazy body group, which extends to the first position followed
by `\n\n**` or to the end of the document (the `\Z` alternative always
lets the lazy group succeed).  Each maximal-munch step is equivalent to
the backtracking regex because no continuation of the pattern can match
a character the preceding greedy piece would have to give back.
`findall` semantics: on failure advance one character, on success
continue at the end of the body group (the lookahead is not consumed).
-/

/-- The lookahead delimiter `\n\n**`. -/
def sepMark : Str := ['\n', '\n', '*', '*']

/-- Split at the first occurrence of `sepMark` (the lazy body group and
the remainder of the document). -/
def splitAtSep : Str → Str × Str
  | [] => ([], [])
  | c :: cs =>
    if sepMark.isPrefixOf (c :: cs) then ([], c :: cs)
    else
      let r := splitAtSep cs
      (c :: r.1, r.2)

/-- After `[^)]+` the pattern requires the closing `):**`; then maximal
whitespace and the lazy body group up to the lookahead or the end. -/
def matchCloseSeq (sp : Str) (r4 : Str) : Option (Str × Str × Str) :=
  match r4 with
  | c4 :: c5 :: c6 :: c7 :: r5 =>
    if c4 = ')' ∧ c5 = ':' ∧ c6 = '*' ∧ c7 = '*' then
      some (sp, (splitAtSep (r5.dropWhile isSpaceCh)).1,
        (splitAtSep (r5.dropWhile isSpaceCh)).2)
    else none
  | _ => none

/-- After the opening parenthesis: the nonempty annotation `[^)]+`, then
the closing sequence. -/
def matchAfterParen (sp : Str) (r3 : Str) : Option (Str × Str × Str) :=
  if (r3.takeWhile (fun c => c != ')')).isEmpty then none
  else matchCloseSeq sp (r3.dropWhile (fun c => c != ')'))

/-- After the speaker letters and `\s*`: require `(` and continue. -/
def matchAfterSpeaker (sp : Str) (r2 : Str) : Option (Str × Str × Str) :=
  match r2 with
  | c3 :: r3 => if c3 = '(' then matchAfterParen sp r3 else none
  | [] => none

/-- Try the turn pattern at the head of `s`; on success return the
speaker group, the body group, and the unconsumed remainder. -/
def matchTurnAt (s : Str) : Option (Str × Str × Str) :=
  match s with
  | c1 :: c2 :: r0 =>
    if c1 = '*' ∧ c2 = '*' then
      if (r0.takeWhile isAlphaCh).isEmpty then none
      else matchAfterSpeaker (r0.takeWhile isAlphaCh)
        ((r0.dropWhile isAlphaCh).dropWhile isSpaceCh)
    else none
  | _ => none

/-- Fuel-bounded scan loop behind `scanTurns`; each step either emits a
match and continues at its end or advances one character, so fuel equal
to the document length always suffices. -/
def scanF : Nat → Str → List (Str × Str)
  | 0, _ => []
  | _ + 1, [] => []
  | fuel + 1, c :: t =>
    match matchTurnAt (c :: t) with
    | some r => (r.1, r.2.1) :: scanF fuel r.2.2
    | none => scanF fuel t

/-- `re.findall` of the turn pattern over the document: all
non-overlapping matches, leftmost first. -/
def scanTurns (s : Str) : List (Str × Str) := scanF s.length s

def skip_patterns : List Str :=
  ["interview simulation".data, "date:".data, "role:".data,
   "interviewer:".data, "candidate:".data, "duration:".data, "---".data,
   "#".data, "how alex shulga".data, "bottom line:".data]

/-- `_is_header_or_metadata`: fixed denylist of substrings applied to
the lower-cased, trimmed body. -/
def _is_header_or_metadata (content : Str) : Bool :=
  let content_lower := pyStrip (pyLower content)
  skip_patterns.any (fun p => hasTerm content_lower p)

/-- `_generate_chunk_id` builds `f"{filename}:{speaker}:{content[:100]}"`
and md5-hashes it; the hash (external `hashlib`, a fixed injective-in-
practice digest) is not modelled — the id is the pre-image string.  No
claim depends on id values. -/
def _generate_chunk_id (filename speaker content : Str) : Str :=
  filename ++ ':' :: speaker ++ ':' :: content.take 100

/-- The per-match body of the `parse_markdown_conversation` loop:
strip the groups, drop empty or header/metadata bodies, build the
chunk.  The `parsed_at` wall-clock metadata entry is provenance only
and is not modelled. -/
def parseFilter (filename : Str) (p : Str × Str) : Option ConversationChunk :=
  let speaker := pyStrip p.1
  let content_text := pyStrip p.2
  if !content_text.isEmpty && !_is_header_or_metadata content_text then
    some { id := _generate_chunk_id filename speaker content_text,
           speaker := speaker, content := content_text,
           file_source := filename,
           metadata := [("file_path".data, filename)] }
  else none

/-- `parse_markdown_conversation` on a document's text and source file
name (a missing file yields the empty document and hence no chunks). -/
def parse_markdown_conversation (doc : Str) (filename : Str) :
    List ConversationChunk :=
  (scanTurns doc).filterMap (parseFilter filename)

/-! ### Well-formed turns and document rendering, for the parser claims -/

structure Turn where
  speaker : Str
  ann : Str
  body : Str
deriving DecidableEq

/-- Render one turn in the canonical `**Speaker (ann):** body` form. -/
def renderTurn (t : Turn) : Str :=
  '*' :: '*' :: t.speaker ++ ' ' :: '(' :: t.ann ++
    ')' :: ':' :: '*' :: '*' :: ' ' :: t.body

/-- Render a document: turns separated by blank lines. -/
def renderDoc : List Turn → Str
  | [] => []
  | [t] => renderTurn t
  | t :: ts => renderTurn t ++ '\n' :: '\n' :: renderDoc ts

/-- The body neither contains two consecutive newlines nor ends in a
whitespace character. -/
def lastOkNoNLNL : Str → Bool
  | [] => true
  | [c] => !isSpaceCh c
  | c1 :: c2 :: r => !(c1 == '\n' && c2 == '\n') && lastOkNoNLNL (c2 :: r)

/-- Well-formed speaker-labelled turn with a non-empty body that is not
recognized as header/metadata noise: purely alphabetic nonempty speaker,
nonempty annotation without `)`, body free of blank lines and not
starting or ending with whitespace. -/
def wfTurn (t : Turn) : Bool :=
  !t.speaker.isEmpty && t.speaker.all isAlphaCh &&
  !t.ann.isEmpty && t.ann.all (fun c => c != ')') &&
  !t.body.isEmpty && !isSpaceCh (t.body.headD 'x') &&
  lastOkNoNLNL t.body && !(_is_header_or_metadata t.body)

/-- The chunk the parser is expected to produce for a turn. -/
def chunkOfTurn (filename : Str) (t : Turn) : ConversationChunk :=
  { id := _generate_chunk_id filename t.speaker t.body,
    speaker := t.speaker, content := t.body, file_source := filename,
    metadata := [("file_path".data, filename)] }

/-- A document whose single turn marker has a two-word speaker label:
`**w1 w2 (ann):** body`. -/
def docSpaceLabel (w1 w2 ann body : Str) : Str :=
  '*' :: '*' :: w1 ++ ' ' :: w2 ++ ' ' :: '(' :: ann ++
    ')' :: ':' :: '*' :: '*' :: ' ' :: body

/-- A document whose single turn marker has a digit in the speaker
label: `**w1<d> (ann):** body`. -/
def docDigitLabel (w1 : Str) (d : Char) (ann body : Str) : Str :=
  '*' :: '*' :: w1 ++ d :: ' ' :: '(' :: ann ++
    ')' :: ':' :: '*' :: '*' :: ' ' :: body

/-- A document whose single turn marker lacks the parenthesized
annotation: `**w1:** body`. -/
def docNoParenLabel (w1 body : Str) : Str :=
  '*' :: '*' :: w1 ++ ':' :: '*' :: '*' :: ' ' :: body

/-- Concrete well-formed turns used by witnesses. -/
def exTurn1 : Turn :=
  { speaker := "Alex".data, ann := "engineer".data,
    body := "We served many users on our platform.".data }

def exTurn2 : Turn :=
  { speaker := "John".data, ann := "host".data,
    body := "How did you do that?".data }

/-! ### Word-level helper lemmas -/

theorem splitWordsAux_words_ok (s : Str) :
    ∀ acc, (∀ c ∈ acc, isSpaceCh c = false) →
    ∀ w ∈ splitWordsAux s acc, w ≠ [] ∧ ∀ c ∈ w, isSpaceCh c = false := by
  induction s with
  | nil =>
    intro acc hacc w hw
    simp only [splitWordsAux] at hw
    split at hw
    · simp at hw
    · next h =>
      simp only [List.mem_singleton] at hw
      subst hw
      constructor
      · simp only [List.isEmpty_iff] at h
        simpa using h
      · intro c hc
        exact hacc c (by simpa using hc)
  | cons c cs ih =>
    intro acc hacc w hw
    simp only [splitWordsAux] at hw
    by_cases hsp : isSpaceCh c
    · rw [if_pos hsp] at hw
      split at hw
      · exact ih [] (by simp) w hw
      · next h =>
        rcases List.mem_cons.mp hw with rfl | hw'
        · constructor
          · simp only [List.isEmpty_iff] at h
            simpa using h
          · intro x hx
            exact hacc x (by simpa using hx)
        · exact ih [] (by simp) w hw'
    · rw [if_neg hsp] at hw
      refine ih (c :: acc) ?_ w hw
      intro x hx
      rcases List.mem_cons.mp hx with rfl | hx'
      · simpa using hsp
      · exact hacc x hx'

theorem splitWords_words_ok (s : Str) :
    ∀ w ∈ splitWords s, w ≠ [] ∧ ∀ c ∈ w, isSpaceCh c = false :=
  splitWordsAux_words_ok s [] (by simp)

theorem splitWordsAux_append_word (w : Str) (hw : ∀ c ∈ w, isSpaceCh c = false) :
    ∀ (s : Str) (acc : Str),
    splitWordsAux (w ++ s) acc = splitWordsAux s (w.reverse ++ acc) := by
  induction w with
  | nil => intro s acc; simp
  | cons c cs ih =>
    intro s acc
    have hc : isSpaceCh c = false := hw c (List.mem_cons_self _ _)
    simp only [List.cons_append, splitWordsAux, hc, Bool.false_eq_true, if_false,
      List.append_eq]
    rw [ih (fun x hx => hw x (List.mem_cons_of_mem _ hx)) s (c :: acc)]
    simp

theorem splitWords_joinWords (ws : List Str)
    (h : ∀ w ∈ ws, w ≠ [] ∧ ∀ c ∈ w, isSpaceCh c = false) :
    splitWords (joinWords ws) = ws := by
  induction ws with
  | nil => simp [splitWords, joinWords, splitWordsAux]
  | cons w ws ih =>
    cases ws with
    | nil =>
      obtain ⟨hne, hok⟩ := h w (List.mem_cons_self _ _)
      have hstep := splitWordsAux_append_word w hok [] []
      simp only [List.append_nil] at hstep
      have hrev : w.reverse.isEmpty = false := by
        simp [List.isEmpty_iff, hne]
      simp only [splitWords, joinWords, hstep, splitWordsAux, hrev,
        Bool.false_eq_true, if_false]
      simp
    | cons w' ws' =>
      obtain ⟨hne, hok⟩ := h w (List.mem_cons_self _ _)
      have hrest : ∀ x ∈ w' :: ws', x ≠ [] ∧ ∀ c ∈ x, isSpaceCh c = false :=
        fun x hx => h x (List.mem_cons_of_mem _ hx)
      have hjoin : joinWords (w :: w' :: ws') = w ++ ' ' :: joinWords (w' :: ws') := rfl
      have hstep := splitWordsAux_append_word w hok (' ' :: joinWords (w' :: ws')) []
      simp only [splitWords, hjoin, hstep, List.append_nil]
      have hsp : isSpaceCh ' ' = true := by decide
      have hrev : (w.reverse ++ []).isEmpty = false := by
        simp [List.isEmpty_iff, hne]
      simp only [splitWordsAux, hsp, if_true, hrev, Bool.false_eq_true, if_false]
      rw [show splitWordsAux (joinWords (w' :: ws')) [] = splitWords (joinWords (w' :: ws')) from rfl]
      rw [ih hrest]
      simp [hne]

/-! ### Chunker lemmas -/

theorem pySlice_nat {α : Type} (l : List α) (a b : Nat)
    (ha : a ≤ l.length) (hb : b ≤ l.length) :
    pySlice l (a : Int) (b : Int) = (l.drop a).take (b - a) := by
  unfold pySlice pyIdx
  rw [if_neg (by omega : ¬ ((a : Int) < 0)), if_neg (by omega : ¬ ((b : Int) < 0))]
  have hta : (a : Int).toNat = a := rfl
  have htb : (b : Int).toNat = b := rfl
  rw [hta, htb, min_eq_left ha, min_eq_left hb]

theorem chunkLoop_diverges (words : List Str) (size overlap : Nat)
    (hso : size ≤ overlap) (hlen : size < words.length) :
    ∀ (fuel : Nat) (start : Int), start ≤ 0 →
    chunkLoop words size overlap fuel start = none := by
  intro fuel
  induction fuel with
  | zero => intro start _; rfl
  | succ n ih =>
    intro start hstart
    have hsz : (size : Int) < (words.length : Int) := by exact_mod_cast hlen
    have hov : (size : Int) ≤ (overlap : Int) := by exact_mod_cast hso
    have hlt : start < (words.length : Int) := by omega
    simp only [chunkLoop]
    rw [if_pos hlt,
      if_neg (by omega :
        ¬ (words.length : Int) ≤ min (start + (size : Int)) (words.length : Int))]
    rw [ih (min (start + (size : Int)) (words.length : Int) - (overlap : Int))
      (by omega)]
    rfl

theorem chunkLoop_spec (words : List Str) (size overlap : Nat)
    (hw : ∀ w ∈ words, w ≠ [] ∧ ∀ c ∈ w, isSpaceCh c = false)
    (h : overlap < size) :
    ∀ (fuel s : Nat), s + overlap < words.length → words.length - s < fuel →
    ∃ c cs, chunkLoop words size overlap fuel (s : Int) = some (c :: cs) ∧
      overlap < (splitWords c).length ∧
      (∀ x ∈ c :: cs, (splitWords x).length ≤ size) ∧
      splitWords c ++ ((cs.map splitWords).map (List.drop overlap)).flatten
        = words.drop s := by
  intro fuel
  induction fuel with
  | zero => intro s h1 h2; omega
  | succ n ih =>
    intro s h1 h2
    have hsL : s < words.length := by omega
    have hguard : (s : Int) < (words.length : Int) := by exact_mod_cast hsL
    have heI : min ((s : Int) + (size : Int)) ((words.length : Int)) =
        ((min (s + size) words.length : Nat) : Int) := by
      push_cast; omega
    have heNle : min (s + size) words.length ≤ words.length := min_le_right _ _
    have hslice : pySlice words (s : Int) ((min (s + size) words.length : Nat) : Int) =
        (words.drop s).take (min (s + size) words.length - s) :=
      pySlice_nat words s _ (le_of_lt hsL) heNle
    have hsub : ∀ w ∈ (words.drop s).take (min (s + size) words.length - s),
        w ≠ [] ∧ ∀ c ∈ w, isSpaceCh c = false := by
      intro w hw'
      exact hw w (List.drop_subset s words (List.take_subset _ _ hw'))
    have hsplit : splitWords (joinWords
        ((words.drop s).take (min (s + size) words.length - s))) =
        (words.drop s).take (min (s + size) words.length - s) :=
      splitWords_joinWords _ hsub
    have hlen : ((words.drop s).take (min (s + size) words.length - s)).length =
        min (s + size) words.length - s := by
      simp only [List.length_take, List.length_drop]
      omega
    simp only [chunkLoop]
    rw [if_pos hguard, heI, hslice]
    by_cases hend : (words.length : Int) ≤ ((min (s + size) words.length : Nat) : Int)
    · -- final window: the window reaches the end of the word list
      have hend' : words.length ≤ min (s + size) words.length := by
        exact_mod_cast hend
      have hEq : min (s + size) words.length = words.length := by omega
      rw [if_pos hend]
      refine ⟨_, [], rfl, ?_, ?_, ?_⟩
      · rw [hsplit, hlen]; omega
      · intro x hx
        rcases List.mem_cons.mp hx with rfl | hx'
        · rw [hsplit, hlen]
          have : min (s + size) words.length ≤ s + size := min_le_left _ _
          omega
        · simp at hx'
      · rw [hsplit]
        simp only [List.map_nil, List.flatten_nil, List.append_nil]
        rw [hEq]
        rw [show words.length - s = (words.drop s).length by simp]
        exact List.take_length _
    · -- sliding window: recurse with start = end - overlap
      have hend' : ¬ words.length ≤ min (s + size) words.length := by
        intro hc
        exact hend (by exact_mod_cast hc)
      have hlt2 : min (s + size) words.length < words.length := by omega
      have hEq : min (s + size) words.length = s + size := by omega
      rw [if_neg hend]
      have harg : ((min (s + size) words.length : Nat) : Int) - (overlap : Int) =
          ((s + (size - overlap) : Nat) : Int) := by
        push_cast; omega
      rw [harg]
      have h1' : s + (size - overlap) + overlap < words.length := by omega
      have h2' : words.length - (s + (size - overlap)) < n := by omega
      obtain ⟨c', cs', heq', hov', hall', hrec'⟩ := ih (s + (size - overlap)) h1' h2'
      rw [heq']
      refine ⟨_, c' :: cs', rfl, ?_, ?_, ?_⟩
      · rw [hsplit, hlen]; omega
      · intro x hx
        rcases List.mem_cons.mp hx with rfl | hx'
        · rw [hsplit, hlen]; omega
        · exact hall' x hx'
      · rw [hsplit]
        simp only [List.map_cons, List.flatten_cons]
        have hdropJ : (splitWords c').drop overlap ++
            ((cs'.map splitWords).map (List.drop overlap)).flatten =
            (splitWords c' ++
              ((cs'.map splitWords).map (List.drop overlap)).flatten).drop overlap := by
          rw [List.drop_append_eq_append_drop,
            Nat.sub_eq_zero_of_le (le_of_lt hov'), List.drop_zero]
        rw [← List.append_assoc, List.append_assoc _ ((splitWords c').drop overlap),
          show ((splitWords c').drop overlap ++
            ((cs'.map splitWords).map (List.drop overlap)).flatten) =
            (splitWords c' ++
              ((cs'.map splitWords).map (List.drop overlap)).flatten).drop overlap
            from hdropJ, hrec']
        rw [List.drop_drop]
        have hidx : s + (size - overlap) + overlap = s + size := by omega
        rw [hidx, hEq]
        rw [show words.drop (s + size) = (words.drop s).drop size from
          (List.drop_drop size s words).symm]
        rw [show s + size - s = size by omega]
        exact List.take_append_drop size (words.drop s)

/-- C2: with `0 ≤ chunk_overlap < chunk_size`, the chunker terminates,
every chunk has word count at most `chunk_size`, and concatenating the
chunks with each later chunk's leading `chunk_overlap` words removed
reconstructs the word sequence of the original text. -/
theorem c2_chunker_coverage (text : Str) (size overlap : Nat) (h : overlap < size) :
    ∃ c cs, chunk_text_by_tokens text size overlap = some (c :: cs) ∧
      (∀ x ∈ c :: cs, (splitWords x).length ≤ size) ∧
      overlapJoin overlap ((c :: cs).map splitWords) = splitWords text := by
  unfold chunk_text_by_tokens
  by_cases hle : (splitWords text).length ≤ size
  · refine ⟨text, [], by rw [if_pos hle], ?_, by simp [overlapJoin]⟩
    intro x hx
    rcases List.mem_cons.mp hx with rfl | hx'
    · exact hle
    · simp at hx'
  · rw [if_neg hle]
    push_neg at hle
    obtain ⟨c, cs, heq, _, hall, hrec⟩ :=
      chunkLoop_spec (splitWords text) size overlap (splitWords_words_ok text) h
        ((splitWords text).length + 1) 0 (by omega) (by omega)
    refine ⟨c, cs, ?_, hall, ?_⟩
    · simpa using heq
    · simp only [overlapJoin, List.map_cons]
      simpa using hrec

/-- Witness for C2 at a concrete five-word text with size 2 and overlap 1. -/
theorem c2_chunker_coverage_witness :
    1 < 2 ∧
    ∃ c cs, chunk_text_by_tokens "a b c d e".data 2 1 = some (c :: cs) ∧
      (∀ x ∈ c :: cs, (splitWords x).length ≤ 2) ∧
      overlapJoin 1 ((c :: cs).map splitWords) = splitWords "a b c d e".data :=
  ⟨by decide, c2_chunker_coverage "a b c d e".data 2 1 (by decide)⟩

/-- C1 (code bug): the source has no `InvalidConfiguration` check at all.
When `chunk_overlap ≥ chunk_size` and the text has more than
`chunk_size` words, the window start never advances past zero and the
`while` loop never exits: the loop model returns `none` for every fuel
bound, so the chunker neither fails fast nor terminates. -/
theorem c1_overlap_ge_size_loops (text : Str) (size overlap : Nat)
    (hso : size ≤ overlap) (hlen : size < (splitWords text).length) :
    (∀ fuel, chunkLoop (splitWords text) size overlap fuel 0 = none) ∧
    chunk_text_by_tokens text size overlap = none := by
  constructor
  · intro fuel
    exact chunkLoop_diverges _ _ _ hso hlen fuel 0 le_rfl
  · unfold chunk_text_by_tokens
    rw [if_neg (by omega)]
    exact chunkLoop_diverges _ _ _ hso hlen _ 0 le_rfl

/-- Witness for C1 at the failing input: three words, size 2, overlap 2. -/
theorem c1_overlap_ge_size_loops_witness :
    2 ≤ 2 ∧ 2 < (splitWords "a b c".data).length ∧
    chunk_text_by_tokens "a b c".data 2 2 = none :=
  ⟨le_rfl, by decide,
    (c1_overlap_ge_size_loops "a b c".data 2 2 le_rfl (by decide)).2⟩

/-! ### Persona analysis lemmas -/

theorem analyze_relevant (chunks : List ConversationChunk) :
    (analyze_persona_context chunks).relevant_chunks =
      chunks.filter (fun c => is_alex_speaker c.speaker) := rfl

theorem analyze_comm (chunks : List ConversationChunk) :
    (analyze_persona_context chunks).communication_style =
      extract_alex_communication_patterns
        (chunks.filter (fun c => is_alex_speaker c.speaker)) := rfl

theorem analyze_tech (chunks : List ConversationChunk) :
    (analyze_persona_context chunks).technical_expertise =
      _extract_technical_expertise
        (chunks.filter (fun c => is_alex_speaker c.speaker)) := rfl

theorem analyze_decision (chunks : List ConversationChunk) :
    (analyze_persona_context chunks).decision_patterns =
      _extract_decision_patterns
        (chunks.filter (fun c => is_alex_speaker c.speaker)) := rfl

theorem analyze_traits (chunks : List ConversationChunk) :
    (analyze_persona_context chunks).personality_traits =
      _extract_personality_traits
        (chunks.filter (fun c => is_alex_speaker c.speaker)) := rfl

theorem mem_single_ite {l p : Str} {b : Bool}
    (h : l ∈ (if b then [p] else ([] : List Str))) : l = p ∧ b = true := by
  cases b <;> simp_all

theorem mem_commPatternsOf {l : Str} {c : ConversationChunk}
    (h : l ∈ commPatternsOf c) : commSupport l c := by
  simp only [commPatternsOf, List.mem_append] at h
  rcases h with ((h | h) | h) | h
  · exact Or.inl (mem_single_ite h)
  · exact Or.inr (Or.inl (mem_single_ite h))
  · exact Or.inr (Or.inr (Or.inl (mem_single_ite h)))
  · exact Or.inr (Or.inr (Or.inr (mem_single_ite h)))

theorem mem_techAreasOf {l : Str} {c : ConversationChunk}
    (h : l ∈ techAreasOf c) : techSupport l c := by
  simp only [techAreasOf, List.mem_append] at h
  rcases h with (((h | h) | h) | h) | h
  · exact Or.inl (mem_single_ite h)
  · exact Or.inr (Or.inl (mem_single_ite h))
  · exact Or.inr (Or.inr (Or.inl (mem_single_ite h)))
  · exact Or.inr (Or.inr (Or.inr (Or.inl (mem_single_ite h))))
  · exact Or.inr (Or.inr (Or.inr (Or.inr (mem_single_ite h))))

theorem mem_decisionPatternsOf {l : Str} {c : ConversationChunk}
    (h : l ∈ decisionPatternsOf c) : decisionSupport l c := by
  simp only [decisionPatternsOf, List.mem_append] at h
  rcases h with ((h | h) | h) | h
  · exact Or.inl (mem_single_ite h)
  · exact Or.inr (Or.inl (mem_single_ite h))
  · exact Or.inr (Or.inr (Or.inl (mem_single_ite h)))
  · exact Or.inr (Or.inr (Or.inr (mem_single_ite h)))

theorem mem_personalityTraitsOf {l : Str} {c : ConversationChunk}
    (h : l ∈ personalityTraitsOf c) : traitSupport l c := by
  simp only [personalityTraitsOf, List.mem_append] at h
  rcases h with ((h | h) | h) | h
  · obtain ⟨rfl, hb⟩ := mem_single_ite h
    rw [Bool.and_eq_true] at hb
    exact Or.inl ⟨rfl, by simpa using hb.1, hb.2⟩
  · exact Or.inr (Or.inl (mem_single_ite h))
  · exact Or.inr (Or.inr (Or.inl (mem_single_ite h)))
  · exact Or.inr (Or.inr (Or.inr (mem_single_ite h)))

theorem mem_extracted_flatten {chunks : List ConversationChunk} {l : Str}
    {f : ConversationChunk → List Str}
    (h : l ∈ ((chunks.map f).flatten).dedup) : ∃ c ∈ chunks, l ∈ f c := by
  rw [List.mem_dedup, List.mem_flatten] at h
  obtain ⟨sub, hsub, hl⟩ := h
  rw [List.mem_map] at hsub
  obtain ⟨c, hc, rfl⟩ := hsub
  exact ⟨c, hc, hl⟩

/-- C3: every label in any of the four label sets of the
`PersonaContext` returned by `analyze_persona_context` is supported by
at least one chunk of `relevant_chunks` whose lower-cased content
matches that label's trigger (keyword set, metric regex, or the
length-plus-keyword condition). -/
theorem c3_label_support (chunks : List ConversationChunk) :
    (∀ l ∈ (analyze_persona_context chunks).communication_style,
      ∃ c ∈ (analyze_persona_context chunks).relevant_chunks, commSupport l c) ∧
    (∀ l ∈ (analyze_persona_context chunks).technical_expertise,
      ∃ c ∈ (analyze_persona_context chunks).relevant_chunks, techSupport l c) ∧
    (∀ l ∈ (analyze_persona_context chunks).decision_patterns,
      ∃ c ∈ (analyze_persona_context chunks).relevant_chunks, decisionSupport l c) ∧
    (∀ l ∈ (analyze_persona_context chunks).personality_traits,
      ∃ c ∈ (analyze_persona_context chunks).relevant_chunks, traitSupport l c) := by
  refine ⟨?_, ?_, ?_, ?_⟩
  · intro l hl
    rw [analyze_comm] at hl
    simp only [extract_alex_communication_patterns] at hl
    obtain ⟨c, hc, hlc⟩ := mem_extracted_flatten hl
    exact ⟨c, by rw [analyze_relevant]; exact List.mem_of_mem_filter hc,
      mem_commPatternsOf hlc⟩
  · intro l hl
    rw [analyze_tech] at hl
    simp only [_extract_technical_expertise] at hl
    obtain ⟨c, hc, hlc⟩ := mem_extracted_flatten hl
    exact ⟨c, by rw [analyze_relevant]; exact hc, mem_techAreasOf hlc⟩
  · intro l hl
    rw [analyze_decision] at hl
    simp only [_extract_decision_patterns] at hl
    obtain ⟨c, hc, hlc⟩ := mem_extracted_flatten hl
    exact ⟨c, by rw [analyze_relevant]; exact hc, mem_decisionPatternsOf hlc⟩
  · intro l hl
    rw [analyze_traits] at hl
    simp only [_extract_personality_traits] at hl
    obtain ⟨c, hc, hlc⟩ := mem_extracted_flatten hl
    exact ⟨c, by rw [analyze_relevant]; exact hc, mem_personalityTraitsOf hlc⟩

/-- Witness for C3: on a one-chunk input whose content mentions
"platform", the platform-thinking label is emitted and supported. -/
theorem c3_label_support_witness :
    pat_platform ∈ (analyze_persona_context [exampleChunkAlex]).communication_style ∧
    ∃ c ∈ (analyze_persona_context [exampleChunkAlex]).relevant_chunks,
      commSupport pat_platform c :=
  ⟨by decide, (c3_label_support [exampleChunkAlex]).1 pat_platform (by decide)⟩

/-- C8: `relevant_chunks` is exactly the speaker-filtered subsequence of
the input chunk list, hence a sublist of the input, and every element
satisfies the persona-speaker predicate. -/
theorem c8_relevant_chunks_filter (chunks : List ConversationChunk) :
    (analyze_persona_context chunks).relevant_chunks =
      chunks.filter (fun c => is_alex_speaker c.speaker) ∧
    ((analyze_persona_context chunks).relevant_chunks).Sublist chunks ∧
    ∀ c ∈ (analyze_persona_context chunks).relevant_chunks,
      is_alex_speaker c.speaker = true := by
  refine ⟨rfl, ?_, ?_⟩
  · rw [analyze_relevant]
    exact List.filter_sublist chunks
  · intro c hc
    rw [analyze_relevant] at hc
    simpa using List.of_mem_filter hc

/-! ### Retrieval engine lemmas -/

theorem filterMap_ite_eq_filter_filterMap {α : Type} (m : List (Nat × α))
    (cond : ℚ × Nat → Prop) [DecidablePred cond] (l : List (ℚ × Nat)) :
    l.filterMap (fun p => if cond p then m.lookup p.2 else none) =
      (l.filter (fun p => decide (cond p) && (m.lookup p.2).isSome)).filterMap
        (fun p => m.lookup p.2) := by
  induction l with
  | nil => rfl
  | cons p t ih =>
    by_cases hc : cond p
    · cases hlk : m.lookup p.2 with
      | some v =>
        simp only [List.filterMap_cons, List.filter_cons, hc, if_pos, hlk,
          decide_eq_true hc, Option.isSome_some, Bool.and_self, ih]
        simp [hlk]
      | none =>
        simp only [List.filterMap_cons, List.filter_cons, hc, if_pos, hlk,
          decide_eq_true hc, Option.isSome_none, Bool.and_false, ih]
        simp
    · simp only [List.filterMap_cons, List.filter_cons, if_neg hc,
        decide_eq_false hc, Bool.false_and, ih]
      simp

/-- C4: `similarity_search` returns at most `min(k, index size)` chunks;
the returned chunks are exactly the surviving scored results (in order)
dereferenced through the lookup table, those scored results are ordered
by descending similarity score, and every one of them is strictly above
the 0.1 minimum-similarity threshold. -/
theorem c4_similarity_search (st : RAGState) (q : List ℚ) (k : Nat)
    (hwf : st.index.length = st.chunks.length) :
    (similarity_search st q k).length ≤ min k st.index.length ∧
    similarity_search st q k =
      (searchScored st q k).filterMap (fun p => st.chunk_map.lookup p.2) ∧
    (searchScored st q k).Pairwise (fun a b => b.1 ≤ a.1) ∧
    ∀ p ∈ searchScored st q k, (1 : ℚ)/10 < p.1 := by
  refine ⟨?_, ?_, ?_, ?_⟩
  · calc (similarity_search st q k).length
        ≤ (faissSearch st.index q (min k st.chunks.length)).length :=
          List.length_filterMap_le _ _
      _ ≤ min k st.chunks.length := by
          unfold faissSearch
          rw [List.length_take]
          exact min_le_left _ _
      _ = min k st.index.length := by rw [hwf]
  · exact filterMap_ite_eq_filter_filterMap st.chunk_map
      (fun p => (1 : ℚ)/10 < p.1) _
  · have hs := List.sorted_insertionSort scoreRel
      (st.index.enum.map (fun p => (dotQ q p.2, p.1)))
    have htake : (faissSearch st.index q (min k st.chunks.length)).Pairwise
        scoreRel :=
      List.Pairwise.sublist (List.take_sublist _ _) hs
    have hfilter : (searchScored st q k).Pairwise scoreRel :=
      List.Pairwise.sublist (List.filter_sublist _) htake
    refine hfilter.imp ?_
    intro a b hab
    rcases hab with h | ⟨h, _⟩
    · exact le_of_lt h
    · exact le_of_eq h.symm
  · intro p hp
    unfold searchScored at hp
    have := List.of_mem_filter hp
    rw [Bool.and_eq_true, decide_eq_true_eq] at this
    exact this.1

/-- Witness for C4 at a concrete one-vector state. -/
theorem c4_similarity_search_witness :
    exampleState.index.length = exampleState.chunks.length ∧
    ((similarity_search exampleState [1] 5).length ≤
        min 5 exampleState.index.length ∧
      similarity_search exampleState [1] 5 =
        (searchScored exampleState [1] 5).filterMap
          (fun p => exampleState.chunk_map.lookup p.2) ∧
      (searchScored exampleState [1] 5).Pairwise (fun a b => b.1 ≤ a.1) ∧
      ∀ p ∈ searchScored exampleState [1] 5, (1 : ℚ)/10 < p.1) :=
  ⟨rfl, c4_similarity_search exampleState [1] 5 rfl⟩

/-- C5: the persona-specific retrieval requests `2 k` results from the
underlying search, keeps exactly the chunks satisfying the
persona-speaker predicate in order, truncates to the first `k`, hence
every returned chunk satisfies the predicate and at most `k` are
returned. -/
theorem c5_alex_specific_context (st : RAGState) (q : List ℚ) (k : Nat) :
    get_alex_specific_context st q k =
      ((similarity_search st q (k * 2)).filter
        (fun c => is_alex_speaker c.speaker)).take k ∧
    (∀ c ∈ get_alex_specific_context st q k, is_alex_speaker c.speaker = true) ∧
    (get_alex_specific_context st q k).length ≤ k := by
  refine ⟨rfl, ?_, ?_⟩
  · intro c hc
    unfold get_alex_specific_context retrieve_context at hc
    have hmem := List.take_subset _ _ hc
    simpa using List.of_mem_filter hmem
  · unfold get_alex_specific_context
    rw [List.length_take]
    exact min_le_left _ _

/-! ### Vector store persistence lemmas -/

/-- C6 counterexample: with only `index.faiss` present, `exists` is
false as the claim says, but `_load_vector_store` performs the rebuild
itself (inside its `except` handler) instead of failing with a
`VectorStoreNotFound` error left for the caller to handle. -/
theorem c6_load_counterexample :
    _vector_store_exists exampleFsIndexOnly examplePath = false ∧
    _load_vector_store exampleFsIndexOnly examplePath =
      LoadOutcome.rebuiltInPlace := by
  constructor <;> decide

/-- C6 (amended): if exactly one artifact is present, `exists` reports
false and the start-up path therefore rebuilds; `_load_vector_store`
itself, if invoked on such a store, does not surface a
`VectorStoreNotFound` failure to its caller — it catches the read error
and performs the rebuild in place. -/
theorem c6_partial_store (fileExists : Str → Bool) (vsp : Str)
    (h : fileExists (indexPath vsp) = true ∧ fileExists (chunksPath vsp) = false ∨
      fileExists (indexPath vsp) = false ∧ fileExists (chunksPath vsp) = true) :
    _vector_store_exists fileExists vsp = false ∧
    _load_vector_store fileExists vsp = LoadOutcome.rebuiltInPlace ∧
    buildOrLoad false fileExists vsp = InitAction.build := by
  obtain ⟨h1, h2⟩ | ⟨h1, h2⟩ := h <;>
    simp [_vector_store_exists, _load_vector_store, buildOrLoad, h1, h2]

/-- Witness for C6 (amended) on the index-only filesystem. -/
theorem c6_partial_store_witness :
    (exampleFsIndexOnly (indexPath examplePath) = true ∧
      exampleFsIndexOnly (chunksPath examplePath) = false) ∧
    (_vector_store_exists exampleFsIndexOnly examplePath = false ∧
      _load_vector_store exampleFsIndexOnly examplePath =
        LoadOutcome.rebuiltInPlace ∧
      buildOrLoad false exampleFsIndexOnly examplePath = InitAction.build) :=
  ⟨by decide, c6_partial_store exampleFsIndexOnly examplePath
    (Or.inl (by decide))⟩

/-! ### Embedding cache lemmas -/

/-- C9: the cache key is the first 100 characters, so once
`_get_embedding` has been computed for `t1`, a second call with any `t2`
sharing those 100 characters returns exactly the vector cached for `t1`,
leaves the cache unchanged, and does not consult the provider. -/
theorem c9_cache_key_aliasing (provider : Str → List ℚ)
    (cache : List (Str × List ℚ)) (t1 t2 : Str)
    (h : t1.take 100 = t2.take 100) :
    _get_embedding provider (_get_embedding provider cache t1).cache t2 =
      { vec := (_get_embedding provider cache t1).vec,
        cache := (_get_embedding provider cache t1).cache,
        calledProvider := false } := by
  unfold _get_embedding
  cases hlk : cache.lookup (t1.take 100) with
  | some v => simp [← h, hlk]
  | none => simp [← h, hlk, List.lookup]

/-- Witness for C9: two 101-character texts agreeing on the first 100
characters, starting from an empty cache. -/
theorem c9_cache_key_aliasing_witness :
    exT1.take 100 = exT2.take 100 ∧
    _get_embedding exampleProvider
        (_get_embedding exampleProvider [] exT1).cache exT2 =
      { vec := (_get_embedding exampleProvider [] exT1).vec,
        cache := (_get_embedding exampleProvider [] exT1).cache,
        calledProvider := false } :=
  ⟨by decide, c9_cache_key_aliasing exampleProvider [] exT1 exT2 (by decide)⟩

/-! ### Parser lemmas -/

theorem dropWhile_length_le (p : Char → Bool) :
    ∀ l : Str, (l.dropWhile p).length ≤ l.length := by
  intro l
  induction l with
  | nil => simp
  | cons c cs ih =>
    rw [List.dropWhile_cons]
    split
    · exact le_trans ih (by simp)
    · simp

theorem splitAtSep_append : ∀ l : Str, (splitAtSep l).1 ++ (splitAtSep l).2 = l := by
  intro l
  induction l with
  | nil => rfl
  | cons c cs ih =>
    unfold splitAtSep
    split
    · rfl
    · simpa using ih

theorem splitAtSep_snd_length (l : Str) : (splitAtSep l).2.length ≤ l.length := by
  conv_rhs => rw [← splitAtSep_append l]
  rw [List.length_append]
  omega

theorem matchCloseSeq_rest_length {sp r4 : Str} {r : Str × Str × Str}
    (h : matchCloseSeq sp r4 = some r) : r.2.2.length ≤ r4.length := by
  unfold matchCloseSeq at h
  split at h
  · next c4 c5 c6 c7 r5 =>
    split at h
    · simp only [Option.some.injEq] at h
      subst h
      have b3 : ((r5.dropWhile isSpaceCh)).length ≤ r5.length :=
        dropWhile_length_le _ _
      have b4 : (splitAtSep (r5.dropWhile isSpaceCh)).2.length ≤
          (r5.dropWhile isSpaceCh).length :=
        splitAtSep_snd_length _
      simp only [List.length_cons]
      omega
    · exact absurd h (by simp)
  · exact absurd h (by simp)

theorem matchAfterParen_rest_length {sp r3 : Str} {r : Str × Str × Str}
    (h : matchAfterParen sp r3 = some r) : r.2.2.length ≤ r3.length := by
  unfold matchAfterParen at h
  split at h
  · exact absurd h (by simp)
  · exact le_trans (matchCloseSeq_rest_length h) (dropWhile_length_le _ _)

theorem matchAfterSpeaker_rest_length {sp r2 : Str} {r : Str × Str × Str}
    (h : matchAfterSpeaker sp r2 = some r) : r.2.2.length < r2.length := by
  unfold matchAfterSpeaker at h
  split at h
  · next c3 r3 =>
    split at h
    · have := matchAfterParen_rest_length h
      simp only [List.length_cons]
      omega
    · exact absurd h (by simp)
  · exact absurd h (by simp)

theorem matchTurnAt_rest_length {s : Str} {r : Str × Str × Str}
    (h : matchTurnAt s = some r) : r.2.2.length < s.length := by
  unfold matchTurnAt at h
  split at h
  · next c1 c2 r0 =>
    split at h
    · split at h
      · exact absurd h (by simp)
      · have h1 := matchAfterSpeaker_rest_length h
        have b1 : ((r0.dropWhile isAlphaCh).dropWhile isSpaceCh).length ≤
            r0.length :=
          le_trans (dropWhile_length_le _ _) (dropWhile_length_le _ _)
        simp only [List.length_cons]
        omega
    · exact absurd h (by simp)
  · exact absurd h (by simp)

theorem scanF_nil : ∀ fuel, scanF fuel [] = [] := by
  intro fuel
  cases fuel <;> rfl

theorem scanF_fuel_congr :
    ∀ (f1 f2 : Nat) (s : Str), s.length ≤ f1 → s.length ≤ f2 →
    scanF f1 s = scanF f2 s := by
  intro f1
  induction f1 with
  | zero =>
    intro f2 s h1 _
    have : s = [] := List.eq_nil_of_length_eq_zero (by omega)
    subst this
    rw [scanF_nil, scanF_nil]
  | succ a ih =>
    intro f2 s h1 h2
    cases s with
    | nil => rw [scanF_nil, scanF_nil]
    | cons c t =>
      cases f2 with
      | zero => simp at h2
      | succ b =>
        have h1' : t.length + 1 ≤ a + 1 := by simpa using h1
        have h2' : t.length + 1 ≤ b + 1 := by simpa using h2
        cases hm : matchTurnAt (c :: t) with
        | some r =>
          have hlt : r.2.2.length < t.length + 1 := by
            simpa using matchTurnAt_rest_length hm
          simp only [scanF, hm]
          rw [ih a r.2.2 (by omega) (by omega), ih b r.2.2 (by omega) (by omega)]
        | none =>
          simp only [scanF, hm]
          rw [ih a t (by omega) (by omega), ih b t (by omega) (by omega)]

theorem scanTurns_match_some {s : Str} {r : Str × Str × Str}
    (hm : matchTurnAt s = some r) :
    scanTurns s = (r.1, r.2.1) :: scanTurns r.2.2 := by
  cases s with
  | nil => exact absurd hm (by rw [show matchTurnAt [] = none from rfl]; simp)
  | cons c t =>
    have hlt : r.2.2.length < t.length + 1 := by
      simpa using matchTurnAt_rest_length hm
    show scanF (c :: t).length (c :: t) = _
    simp only [List.length_cons, scanF, hm]
    rw [scanF_fuel_congr t.length r.2.2.length r.2.2 (by omega) le_rfl]
    rfl

theorem scanTurns_cons_none {c : Char} {t : Str}
    (hm : matchTurnAt (c :: t) = none) : scanTurns (c :: t) = scanTurns t := by
  show scanF (c :: t).length (c :: t) = _
  simp only [List.length_cons, scanF, hm]
  rfl

theorem matchTurnAt_cons_nonstar {c : Char} (l : Str) (hc : c ≠ '*') :
    matchTurnAt (c :: l) = none := by
  cases l with
  | nil => rfl
  | cons c2 l' =>
    simp only [matchTurnAt]
    rw [if_neg]
    rintro ⟨h1, -⟩
    exact hc h1

theorem matchTurnAt_star_cons_nonstar {c : Char} (l : Str) (hc : c ≠ '*') :
    matchTurnAt ('*' :: c :: l) = none := by
  simp only [matchTurnAt]
  rw [if_neg]
  rintro ⟨-, h2⟩
  exact hc h2

theorem scanTurns_skip (xs : Str) (l : Str) (h : ∀ c ∈ xs, c ≠ '*') :
    scanTurns (xs ++ l) = scanTurns l := by
  induction xs with
  | nil => rfl
  | cons c xs' ih =>
    rw [List.cons_append,
      scanTurns_cons_none (matchTurnAt_cons_nonstar _ (h c (List.mem_cons_self _ _)))]
    exact ih (fun x hx => h x (List.mem_cons_of_mem _ hx))

theorem uint32_le_toNat {a b : UInt32} (h : a ≤ b) : a.toNat ≤ b.toNat := by
  rw [UInt32.le_def, BitVec.le_def] at h
  exact h

theorem alpha_not_space {c : Char} (h : isAlphaCh c = true) :
    isSpaceCh c = false := by
  by_contra hsp
  rw [Bool.not_eq_false] at hsp
  unfold isSpaceCh Char.isWhitespace at hsp
  simp only [Bool.or_eq_true, decide_eq_true_eq] at hsp
  rcases hsp with ((h1 | h1) | h1) | h1 <;> subst h1 <;>
    simp [isAlphaCh, Char.isAlpha, Char.isUpper, Char.isLower] at h

theorem alpha_ne {c d : Char} (h : isAlphaCh c = true)
    (hd : isAlphaCh d = false) : c ≠ d := by
  intro he
  subst he
  rw [h] at hd
  cases hd

theorem digit_not_alpha {c : Char} (h : c.isDigit = true) :
    isAlphaCh c = false := by
  unfold Char.isDigit at h
  rw [Bool.and_eq_true, decide_eq_true_eq, decide_eq_true_eq] at h
  obtain ⟨h1, h2⟩ := h
  have h48 : (48 : UInt32).toNat = 48 := rfl
  have h57 : (57 : UInt32).toNat = 57 := rfl
  have h1' : 48 ≤ c.val.toNat := h48 ▸ uint32_le_toNat h1
  have h2' : c.val.toNat ≤ 57 := h57 ▸ uint32_le_toNat h2
  unfold isAlphaCh Char.isAlpha Char.isUpper Char.isLower
  have hu : decide (c.val ≥ 65) = false := by
    rw [decide_eq_false_iff_not]
    intro hc
    have := uint32_le_toNat hc
    have h65 : (65 : UInt32).toNat = 65 := rfl
    omega
  have hl : decide (c.val ≥ 97) = false := by
    rw [decide_eq_false_iff_not]
    intro hc
    have := uint32_le_toNat hc
    have h97 : (97 : UInt32).toNat = 97 := rfl
    omega
  rw [hu, hl]
  simp

theorem digit_not_space {c : Char} (h : c.isDigit = true) :
    isSpaceCh c = false := by
  by_contra hsp
  rw [Bool.not_eq_false] at hsp
  unfold isSpaceCh Char.isWhitespace at hsp
  simp only [Bool.or_eq_true, decide_eq_true_eq] at hsp
  rcases hsp with ((h1 | h1) | h1) | h1 <;> subst h1 <;>
    simp [Char.isDigit] at h

theorem digit_ne {c d : Char} (h : c.isDigit = true)
    (hd : d.isDigit = false) : c ≠ d := by
  intro he
  subst he
  rw [h] at hd
  cases hd

theorem takeWhile_append_stop (p : Char → Bool) (xs : Str) (c : Char) (ys : Str)
    (hxs : ∀ x ∈ xs, p x = true) (hc : p c = false) :
    (xs ++ c :: ys).takeWhile p = xs := by
  induction xs with
  | nil => simp [List.takeWhile_cons, hc]
  | cons x xs' ih =>
    rw [List.cons_append, List.takeWhile_cons,
      if_pos (hxs x (List.mem_cons_self _ _)),
      ih (fun y hy => hxs y (List.mem_cons_of_mem _ hy))]

theorem dropWhile_append_stop (p : Char → Bool) (xs : Str) (c : Char) (ys : Str)
    (hxs : ∀ x ∈ xs, p x = true) (hc : p c = false) :
    (xs ++ c :: ys).dropWhile p = c :: ys := by
  induction xs with
  | nil => simp [List.dropWhile_cons, hc]
  | cons x xs' ih =>
    rw [List.cons_append, List.dropWhile_cons,
      if_pos (hxs x (List.mem_cons_self _ _)),
      ih (fun y hy => hxs y (List.mem_cons_of_mem _ hy))]

theorem lastOk_tail {c : Char} {bs : Str}
    (h : lastOkNoNLNL (c :: bs) = true) : lastOkNoNLNL bs = true := by
  cases bs with
  | nil => rfl
  | cons b bs' =>
    unfold lastOkNoNLNL at h
    rw [Bool.and_eq_true] at h
    exact h.2

theorem lastOk_decomp : ∀ {s : Str}, lastOkNoNLNL s = true →
    s = [] ∨ ∃ s' cl, s = s' ++ [cl] ∧ isSpaceCh cl = false := by
  intro s
  induction s with
  | nil => intro _; exact Or.inl rfl
  | cons c bs ih =>
    intro h
    rcases ih (lastOk_tail h) with hnil | ⟨s', cl, heq, hcl⟩
    · subst hnil
      unfold lastOkNoNLNL at h
      refine Or.inr ⟨[], c, rfl, ?_⟩
      simpa using h
    · refine Or.inr ⟨c :: s', cl, ?_, hcl⟩
      rw [heq, List.cons_append]

theorem pyStrip_eq_self {s : Str}
    (hhead : ∀ c cs, s = c :: cs → isSpaceCh c = false)
    (hlast : s = [] ∨ ∃ s' cl, s = s' ++ [cl] ∧ isSpaceCh cl = false) :
    pyStrip s = s := by
  unfold pyStrip
  have h1 : s.dropWhile isSpaceCh = s := by
    cases s with
    | nil => rfl
    | cons c cs =>
      rw [List.dropWhile_cons, hhead c cs rfl]
      simp
  rw [h1]
  rcases hlast with rfl | ⟨s', cl, rfl, hcl⟩
  · rfl
  · rw [List.reverse_append, List.reverse_cons, List.reverse_nil,
      List.nil_append, List.singleton_append, List.dropWhile_cons, hcl]
    simp

theorem pyStrip_alpha {s : Str} (h : ∀ c ∈ s, isAlphaCh c = true) :
    pyStrip s = s := by
  refine pyStrip_eq_self ?_ ?_
  · intro c cs heq
    exact alpha_not_space (h c (heq ▸ List.mem_cons_self _ _))
  · rcases List.eq_nil_or_concat s with rfl | ⟨L, b, heq⟩
    · exact Or.inl rfl
    · refine Or.inr ⟨L, b, by simpa using heq, ?_⟩
      refine alpha_not_space (h b ?_)
      rw [heq]
      simp [List.concat_eq_append]

theorem pyStrip_body {s : Str} (hne : s.isEmpty = false)
    (hhead : isSpaceCh (s.headD 'x') = false)
    (hlast : lastOkNoNLNL s = true) : pyStrip s = s := by
  refine pyStrip_eq_self ?_ (lastOk_decomp hlast)
  intro c cs heq
  subst heq
  simpa using hhead

theorem splitAtSep_eq : ∀ {body : Str}, ∀ {rest : Str},
    lastOkNoNLNL body = true →
    (rest = [] ∨ sepMark.isPrefixOf rest = true) →
    splitAtSep (body ++ rest) = (body, rest) := by
  intro body
  induction body with
  | nil =>
    intro rest _ hr
    rcases hr with rfl | hr
    · rfl
    · cases rest with
      | nil => rfl
      | cons c cs =>
        rw [List.nil_append]
        simp only [splitAtSep]
        rw [if_pos hr]
  | cons c bs ih =>
    intro rest hb hr
    have hcond : sepMark.isPrefixOf (c :: (bs ++ rest)) = false := by
      by_contra hp
      rw [Bool.not_eq_false] at hp
      cases bs with
      | nil =>
        have hc : c = '\n' := by
          simp only [sepMark, List.isPrefixOf, Bool.and_eq_true, beq_iff_eq] at hp
          exact hp.1.symm
        unfold lastOkNoNLNL at hb
        rw [hc] at hb
        simp [isSpaceCh] at hb
      | cons b bs' =>
        rw [List.cons_append] at hp
        simp only [sepMark, List.isPrefixOf, Bool.and_eq_true, beq_iff_eq] at hp
        unfold lastOkNoNLNL at hb
        rw [Bool.and_eq_true] at hb
        have := hb.1
        rw [← hp.1, ← hp.2.1] at this
        simp at this
    rw [List.cons_append]
    simp only [splitAtSep]
    rw [if_neg (by rw [hcond]; simp)]
    have := ih (lastOk_tail hb) hr
    rw [this]

theorem matchTurnAt_render (t : Turn) (rest : Str) (hwf : wfTurn t = true)
    (hrest : rest = [] ∨ ∃ r, rest = '\n' :: '\n' :: '*' :: '*' :: r) :
    matchTurnAt (renderTurn t ++ rest) = some (t.speaker, t.body, rest) := by
  simp only [wfTurn, Bool.and_eq_true] at hwf
  obtain ⟨⟨⟨⟨⟨⟨⟨hspNe, hspAll⟩, hannNe⟩, hannAll⟩, hbodyNe⟩, hheadOk⟩,
    hlastOk⟩, -⟩ := hwf
  have hspNe' : t.speaker.isEmpty = false := by simpa using hspNe
  have hannNe' : t.ann.isEmpty = false := by simpa using hannNe
  have hbodyNe' : t.body.isEmpty = false := by simpa using hbodyNe
  have hheadOk' : isSpaceCh (t.body.headD 'x') = false := by simpa using hheadOk
  have hmemSp : ∀ x ∈ t.speaker, isAlphaCh x = true := by
    rw [List.all_eq_true] at hspAll
    exact fun x hx => hspAll x hx
  have hmemAnn : ∀ x ∈ t.ann, (x != ')') = true := by
    rw [List.all_eq_true] at hannAll
    exact fun x hx => hannAll x hx
  have hs : renderTurn t ++ rest =
      '*' :: '*' :: (t.speaker ++ (' ' :: '(' :: (t.ann ++
        (')' :: ':' :: '*' :: '*' :: ' ' :: (t.body ++ rest))))) := by
    simp [renderTurn]
  rw [hs]
  simp only [matchTurnAt]
  rw [if_pos (⟨trivial, trivial⟩ : True ∧ True),
    takeWhile_append_stop isAlphaCh t.speaker ' ' _ hmemSp (by decide),
    dropWhile_append_stop isAlphaCh t.speaker ' ' _ hmemSp (by decide),
    if_neg (by rw [hspNe']; simp)]
  rw [List.dropWhile_cons, if_pos (by decide : isSpaceCh ' ' = true),
    List.dropWhile_cons, if_neg (by decide : ¬ isSpaceCh '(' = true)]
  simp only [matchAfterSpeaker]
  rw [if_pos trivial]
  unfold matchAfterParen
  rw [takeWhile_append_stop _ t.ann ')' _ hmemAnn (by decide),
    dropWhile_append_stop _ t.ann ')' _ hmemAnn (by decide),
    if_neg (by rw [hannNe']; simp)]
  simp only [matchCloseSeq]
  rw [if_pos (⟨trivial, trivial, trivial, trivial⟩ :
    True ∧ True ∧ True ∧ True)]
  rw [List.dropWhile_cons, if_pos (by decide : isSpaceCh ' ' = true)]
  obtain ⟨c0, bs, hb⟩ : ∃ c0 bs, t.body = c0 :: bs := by
    cases hcase : t.body with
    | nil => rw [hcase] at hbodyNe'; simp at hbodyNe'
    | cons c0 bs => exact ⟨c0, bs, rfl⟩
  have hdwBody : (t.body ++ rest).dropWhile isSpaceCh = t.body ++ rest := by
    rw [hb, List.cons_append, List.dropWhile_cons, if_neg]
    rw [hb] at hheadOk'
    simp only [List.headD_cons] at hheadOk'
    rw [hheadOk']
    simp
  rw [hdwBody]
  have hrest' : rest = [] ∨ sepMark.isPrefixOf rest = true := by
    rcases hrest with rfl | ⟨r, rfl⟩
    · exact Or.inl rfl
    · refine Or.inr ?_
      simp [sepMark, List.isPrefixOf]
  rw [splitAtSep_eq hlastOk hrest']

theorem renderDoc_cons (t : Turn) (ts : List Turn) :
    ∃ r, renderDoc (t :: ts) = '*' :: '*' :: r := by
  cases ts with
  | nil =>
    exact ⟨t.speaker ++ ' ' :: '(' :: t.ann ++
      ')' :: ':' :: '*' :: '*' :: ' ' :: t.body, by simp [renderDoc, renderTurn]⟩
  | cons t' ts' =>
    exact ⟨(t.speaker ++ ' ' :: '(' :: t.ann ++
      ')' :: ':' :: '*' :: '*' :: ' ' :: t.body) ++
        '\n' :: '\n' :: renderDoc (t' :: ts'),
      by simp [renderDoc, renderTurn]⟩

theorem scanTurns_renderDoc : ∀ (ts : List Turn),
    (∀ t ∈ ts, wfTurn t = true) →
    scanTurns (renderDoc ts) = ts.map (fun t => (t.speaker, t.body)) := by
  intro ts
  induction ts with
  | nil => intro _; rfl
  | cons t ts ih =>
    intro h
    cases ts with
    | nil =>
      have hm := matchTurnAt_render t [] (h t (List.mem_cons_self _ _))
        (Or.inl rfl)
      rw [List.append_nil] at hm
      rw [show renderDoc [t] = renderTurn t from rfl, scanTurns_match_some hm]
      rfl
    | cons t' ts' =>
      obtain ⟨r, hr⟩ := renderDoc_cons t' ts'
      have hm := matchTurnAt_render t ('\n' :: '\n' :: renderDoc (t' :: ts'))
        (h t (List.mem_cons_self _ _)) (Or.inr ⟨r, by rw [hr]⟩)
      rw [show renderDoc (t :: t' :: ts') =
        renderTurn t ++ '\n' :: '\n' :: renderDoc (t' :: ts') from rfl]
      rw [scanTurns_match_some hm]
      rw [scanTurns_cons_none (matchTurnAt_cons_nonstar _ (by decide))]
      rw [scanTurns_cons_none (matchTurnAt_cons_nonstar _ (by decide))]
      rw [ih (fun x hx => h x (List.mem_cons_of_mem _ hx))]
      rfl

theorem parseFilter_wf (filename : Str) (t : Turn) (hwf : wfTurn t = true) :
    parseFilter filename (t.speaker, t.body) =
      some (chunkOfTurn filename t) := by
  simp only [wfTurn, Bool.and_eq_true] at hwf
  obtain ⟨⟨⟨⟨⟨⟨⟨hspNe, hspAll⟩, -⟩, -⟩, hbodyNe⟩, hheadOk⟩, hlastOk⟩,
    hnoise⟩ := hwf
  have hmemSp : ∀ x ∈ t.speaker, isAlphaCh x = true := by
    rw [List.all_eq_true] at hspAll
    exact fun x hx => hspAll x hx
  have hsp : pyStrip t.speaker = t.speaker := pyStrip_alpha hmemSp
  have hbody : pyStrip t.body = t.body :=
    pyStrip_body (by simpa using hbodyNe) (by simpa using hheadOk) hlastOk
  unfold parseFilter
  simp only [hsp, hbody]
  rw [if_pos]
  · rfl
  · rw [show t.body.isEmpty = false from by simpa using hbodyNe,
      show _is_header_or_metadata t.body = false from by simpa using hnoise]
    simp

/-- C7: a rendered document of `N` well-formed, non-noise turns parses
to exactly `N` chunks, the `i`-th chunk carrying the `i`-th turn's
speaker and body verbatim. -/
theorem c7_parse_wellformed (ts : List Turn) (filename : Str)
    (h : ∀ t ∈ ts, wfTurn t = true) :
    parse_markdown_conversation (renderDoc ts) filename =
      ts.map (chunkOfTurn filename) ∧
    (parse_markdown_conversation (renderDoc ts) filename).length = ts.length := by
  have hmain : parse_markdown_conversation (renderDoc ts) filename =
      ts.map (chunkOfTurn filename) := by
    unfold parse_markdown_conversation
    rw [scanTurns_renderDoc ts h]
    induction ts with
    | nil => rfl
    | cons t ts' ih =>
      rw [List.map_cons, List.map_cons, List.filterMap_cons,
        parseFilter_wf filename t (h t (List.mem_cons_self _ _))]
      rw [ih (fun x hx => h x (List.mem_cons_of_mem _ hx))]
  exact ⟨hmain, by rw [hmain, List.length_map]⟩

/-- Witness for C7: a concrete two-turn document. -/
theorem c7_parse_wellformed_witness :
    (∀ t ∈ [exTurn1, exTurn2], wfTurn t = true) ∧
    (parse_markdown_conversation (renderDoc [exTurn1, exTurn2]) "f.md".data =
        [exTurn1, exTurn2].map (chunkOfTurn "f.md".data) ∧
      (parse_markdown_conversation (renderDoc [exTurn1, exTurn2])
        "f.md".data).length = 2) :=
  ⟨by decide, c7_parse_wellformed [exTurn1, exTurn2] "f.md".data (by decide)⟩

theorem matchTurnAt_stars_empty {r0 : Str}
    (h : (r0.takeWhile isAlphaCh).isEmpty = true) :
    matchTurnAt ('*' :: '*' :: r0) = none := by
  simp only [matchTurnAt]
  rw [if_pos (⟨trivial, trivial⟩ : True ∧ True), if_pos h]

theorem matchTurnAt_fail_afterSpeaker {r0 : Str}
    (h : matchAfterSpeaker (r0.takeWhile isAlphaCh)
      ((r0.dropWhile isAlphaCh).dropWhile isSpaceCh) = none) :
    matchTurnAt ('*' :: '*' :: r0) = none := by
  simp only [matchTurnAt]
  rw [if_pos (⟨trivial, trivial⟩ : True ∧ True)]
  split
  · rfl
  · exact h

theorem matchAfterSpeaker_nonparen {sp : Str} {c : Char} {X : Str}
    (hc : c ≠ '(') : matchAfterSpeaker sp (c :: X) = none := by
  simp only [matchAfterSpeaker]
  rw [if_neg hc]

theorem scanTurns_stars_space_body (body : Str)
    (hbody : ∀ c ∈ body, c ≠ '*') :
    scanTurns ('*' :: '*' :: ' ' :: body) = [] := by
  rw [scanTurns_cons_none (matchTurnAt_stars_empty
    (by rw [List.takeWhile_cons, if_neg (by decide)]; rfl))]
  rw [scanTurns_cons_none (matchTurnAt_star_cons_nonstar _ (by decide))]
  rw [scanTurns_cons_none (matchTurnAt_cons_nonstar _ (by decide))]
  have hskip := scanTurns_skip body [] hbody
  rw [List.append_nil] at hskip
  rw [hskip]
  rfl

/-- C10 (negative direction): a turn marker whose speaker label has a
second word, or a digit after the letters, or no parenthesized
annotation at all, produces no chunk regardless of the body. -/
theorem c10_malformed_label (w1 w2 ann body : Str) (d : Char) (filename : Str)
    (hw1ne : w1 ≠ []) (hw1 : ∀ c ∈ w1, isAlphaCh c = true)
    (hw2ne : w2 ≠ []) (hw2 : ∀ c ∈ w2, isAlphaCh c = true)
    (hann : ∀ c ∈ ann, isAlphaCh c = true)
    (hd : d.isDigit = true)
    (hbody : ∀ c ∈ body, c ≠ '*') :
    parse_markdown_conversation (docSpaceLabel w1 w2 ann body) filename = [] ∧
    parse_markdown_conversation (docDigitLabel w1 d ann body) filename = [] ∧
    parse_markdown_conversation (docNoParenLabel w1 body) filename = [] := by
  obtain ⟨c1, w1', rfl⟩ : ∃ c l, w1 = c :: l := by
    cases w1 with
    | nil => exact absurd rfl hw1ne
    | cons c l => exact ⟨c, l, rfl⟩
  obtain ⟨c2, w2', rfl⟩ : ∃ c l, w2 = c :: l := by
    cases w2 with
    | nil => exact absurd rfl hw2ne
    | cons c l => exact ⟨c, l, rfl⟩
  have hc1 : isAlphaCh c1 = true := hw1 c1 (List.mem_cons_self _ _)
  have hc2 : isAlphaCh c2 = true := hw2 c2 (List.mem_cons_self _ _)
  refine ⟨?_, ?_, ?_⟩
  · -- space inside the label
    unfold parse_markdown_conversation
    have hdoc : docSpaceLabel (c1 :: w1') (c2 :: w2') ann body =
        '*' :: '*' :: ((c1 :: w1') ++ ' ' :: (c2 :: (w2' ++ ' ' :: '(' ::
          (ann ++ ')' :: ':' :: '*' :: '*' :: ' ' :: body)))) := by
      simp [docSpaceLabel]
    have hm0 : matchTurnAt ('*' :: '*' :: ((c1 :: w1') ++ ' ' :: (c2 ::
        (w2' ++ ' ' :: '(' :: (ann ++ ')' :: ':' :: '*' :: '*' :: ' ' ::
          body))))) = none := by
      apply matchTurnAt_fail_afterSpeaker
      rw [dropWhile_append_stop isAlphaCh (c1 :: w1') ' ' _ hw1 (by decide),
        List.dropWhile_cons, if_pos (by decide : isSpaceCh ' ' = true),
        List.dropWhile_cons, if_neg (by rw [alpha_not_space hc2]; simp)]
      exact matchAfterSpeaker_nonparen (alpha_ne hc2 (by decide))
    rw [hdoc, scanTurns_cons_none hm0, List.cons_append,
      scanTurns_cons_none (matchTurnAt_star_cons_nonstar _
        (alpha_ne hc1 (by decide)))]
    have hsh : c1 :: (w1' ++ ' ' :: (c2 :: (w2' ++ ' ' :: '(' ::
        (ann ++ ')' :: ':' :: '*' :: '*' :: ' ' :: body)))) =
        ((c1 :: w1') ++ ' ' :: (c2 :: w2') ++ ' ' :: '(' ::
          (ann ++ [')', ':'])) ++ '*' :: '*' :: ' ' :: body := by
      simp
    rw [hsh, scanTurns_skip _ _ ?hmem, scanTurns_stars_space_body body hbody]
    · rfl
    case hmem =>
      intro c hc
      simp only [List.mem_append, List.mem_cons, List.mem_singleton] at hc
      casesm* _ ∨ _
      all_goals first
        | (subst_vars; decide)
        | (subst_vars; exact alpha_ne hc1 (by decide))
        | (subst_vars; exact alpha_ne hc2 (by decide))
        | (subst_vars; exact digit_ne hd (by decide))
        | (exact alpha_ne (hw1 c (List.mem_cons_of_mem _ (by assumption))) (by decide))
        | (exact alpha_ne (hw2 c (List.mem_cons_of_mem _ (by assumption))) (by decide))
        | (exact alpha_ne (hann c (by assumption)) (by decide))
        | (exact absurd (by assumption : c ∈ ([] : Str)) (List.not_mem_nil c))
  · -- digit inside the label
    unfold parse_markdown_conversation
    have hdoc : docDigitLabel (c1 :: w1') d ann body =
        '*' :: '*' :: ((c1 :: w1') ++ d :: ' ' :: '(' ::
          (ann ++ ')' :: ':' :: '*' :: '*' :: ' ' :: body)) := by
      simp [docDigitLabel]
    have hm0 : matchTurnAt ('*' :: '*' :: ((c1 :: w1') ++ d :: ' ' :: '(' ::
        (ann ++ ')' :: ':' :: '*' :: '*' :: ' ' :: body))) = none := by
      apply matchTurnAt_fail_afterSpeaker
      rw [dropWhile_append_stop isAlphaCh (c1 :: w1') d _ hw1
          (digit_not_alpha hd),
        List.dropWhile_cons, if_neg (by rw [digit_not_space hd]; simp)]
      exact matchAfterSpeaker_nonparen (digit_ne hd (by decide))
    rw [hdoc, scanTurns_cons_none hm0, List.cons_append,
      scanTurns_cons_none (matchTurnAt_star_cons_nonstar _
        (alpha_ne hc1 (by decide)))]
    have hsh : c1 :: (w1' ++ d :: ' ' :: '(' ::
        (ann ++ ')' :: ':' :: '*' :: '*' :: ' ' :: body)) =
        ((c1 :: w1') ++ d :: ' ' :: '(' :: (ann ++ [')', ':'])) ++
          '*' :: '*' :: ' ' :: body := by
      simp
    rw [hsh, scanTurns_skip _ _ ?hmemd, scanTurns_stars_space_body body hbody]
    · rfl
    case hmemd =>
      intro c hc
      simp only [List.mem_append, List.mem_cons, List.mem_singleton] at hc
      casesm* _ ∨ _
      all_goals first
        | (subst_vars; decide)
        | (subst_vars; exact alpha_ne hc1 (by decide))
        | (subst_vars; exact alpha_ne hc2 (by decide))
        | (subst_vars; exact digit_ne hd (by decide))
        | (exact alpha_ne (hw1 c (List.mem_cons_of_mem _ (by assumption))) (by decide))
        | (exact alpha_ne (hw2 c (List.mem_cons_of_mem _ (by assumption))) (by decide))
        | (exact alpha_ne (hann c (by assumption)) (by decide))
        | (exact absurd (by assumption : c ∈ ([] : Str)) (List.not_mem_nil c))
  · -- missing parenthesized annotation
    unfold parse_markdown_conversation
    have hdoc : docNoParenLabel (c1 :: w1') body =
        '*' :: '*' :: ((c1 :: w1') ++ ':' :: '*' :: '*' :: ' ' :: body) := by
      simp [docNoParenLabel]
    have hm0 : matchTurnAt ('*' :: '*' :: ((c1 :: w1') ++ ':' :: '*' :: '*' ::
        ' ' :: body)) = none := by
      apply matchTurnAt_fail_afterSpeaker
      rw [dropWhile_append_stop isAlphaCh (c1 :: w1') ':' _ hw1 (by decide),
        List.dropWhile_cons, if_neg (by decide)]
      exact matchAfterSpeaker_nonparen (by decide)
    rw [hdoc, scanTurns_cons_none hm0, List.cons_append,
      scanTurns_cons_none (matchTurnAt_star_cons_nonstar _
        (alpha_ne hc1 (by decide)))]
    have hsh : c1 :: (w1' ++ ':' :: '*' :: '*' :: ' ' :: body) =
        ((c1 :: w1') ++ [':']) ++ '*' :: '*' :: ' ' :: body := by
      simp
    rw [hsh, scanTurns_skip _ _ ?hmemn, scanTurns_stars_space_body body hbody]
    · rfl
    case hmemn =>
      intro c hc
      simp only [List.mem_append, List.mem_cons, List.mem_singleton] at hc
      casesm* _ ∨ _
      all_goals first
        | (subst_vars; decide)
        | (subst_vars; exact alpha_ne hc1 (by decide))
        | (subst_vars; exact alpha_ne hc2 (by decide))
        | (subst_vars; exact digit_ne hd (by decide))
        | (exact alpha_ne (hw1 c (List.mem_cons_of_mem _ (by assumption))) (by decide))
        | (exact alpha_ne (hw2 c (List.mem_cons_of_mem _ (by assumption))) (by decide))
        | (exact alpha_ne (hann c (by assumption)) (by decide))
        | (exact absurd (by assumption : c ∈ ([] : Str)) (List.not_mem_nil c))

/-- Witness for C10 at concrete malformed markers with a shared body. -/
theorem c10_malformed_label_witness :
    ("John".data ≠ [] ∧ "Smith".data ≠ [] ∧ ('2' : Char).isDigit = true) ∧
    (parse_markdown_conversation
        (docSpaceLabel "John".data "Smith".data "x".data "hello".data)
        "f.md".data = [] ∧
      parse_markdown_conversation
        (docDigitLabel "John".data '2' "x".data "hello".data)
        "f.md".data = [] ∧
      parse_markdown_conversation
        (docNoParenLabel "John".data "hello".data) "f.md".data = []) :=
  ⟨⟨by decide, by decide, by decide⟩,
    c10_malformed_label "John".data "Smith".data "x".data "hello".data '2'
      "f.md".data (by decide) (by decide) (by decide) (by decide) (by decide)
      (by decide) (by decide)⟩

end RoboInfluencer
